import Mathlib

/-!
The RC4 key schedule and encryption loop of NativeRC4.c

A shallow embedding of `PDFPassRecovery.Native/NativeRC4.c` and the properties
its specification states about it.

The C file keeps two global arrays, `shadowS` and `S`, of `STATE_ARRAY_SIZE`
objects of type `char`, and three functions, `InitShadowS`, `Init` and
`Encrypt`.  The embedding keeps the C typing explicit:

* a `char` is a signed 8-bit object (the project is built with a compiler
  whose plain `char` is signed); reading it in an expression gives an `int`
  in `-128..127`, and the conversion `(char)x` of an `int` keeps the low
  eight bits;
* `x & 0xFF` on a two's-complement `int` is the remainder `x % 256` in
  `0..255`;
* every array access is checked: an index outside the array, and a `%` whose
  right operand is zero, are undefined in C and end the run with a `Fault`.
-/

namespace NativeRC4

/-! ## C scalars -/

/-- The size of the two state arrays (`#define STATE_ARRAY_SIZE 256`). -/
abbrev STATE_ARRAY_SIZE : Nat := 256

/-- A C object of type `char`: a signed 8-bit integer.  `val` is the value an
expression reads from it. -/
structure CChar where
  val : Int
  lo : -128 ≤ val
  hi : val ≤ 127

namespace CChar

/-- The conversion `(char)x` of an `int` (or `size_t`) value: the low eight
bits of `x`, read back as a signed 8-bit integer. -/
def ofInt (x : Int) : CChar :=
  ⟨(x + 128) % 256 - 128, by omega, by omega⟩

/-- The object read as an unsigned byte `0..255` (its bit pattern). -/
def toNat (c : CChar) : Nat := (c.val % 256).toNat

/-- The `char` whose unsigned reading is `n % 256`. -/
def ofNat (n : Nat) : CChar := ofInt (Int.ofNat n)

/-- The C expression `(char)(a ^ b)` on two `char` operands: both are
promoted to `int`, combined bitwise, and the result converted back. -/
def xor (a b : CChar) : CChar := ofInt (Int.xor a.val b.val)

instance : Inhabited CChar := ⟨ofInt 0⟩

instance : DecidableEq CChar := fun a b =>
  if h : a.val = b.val then
    isTrue (by cases a; cases b; cases h; rfl)
  else
    isFalse (fun e => h (by rw [e]))

end CChar

/-- The ways a run of the C code can leave defined behaviour. -/
inductive Fault where
  | divisionByZero
  | indexOutOfRange
  deriving DecidableEq, Repr

/-- An array `char a[STATE_ARRAY_SIZE]`. -/
abbrev StateArray := Mathlib.Vector CChar STATE_ARRAY_SIZE

/-- The read `a[i]` of a state array at an `int` (or `size_t`) index. -/
def StateArray.read (a : StateArray) (i : Int) : Except Fault CChar :=
  if h : 0 ≤ i ∧ i < 256 then
    .ok (a.get ⟨i.toNat, by unfold STATE_ARRAY_SIZE; omega⟩)
  else
    .error .indexOutOfRange

/-- The assignment `a[i] = c` to a state array. -/
def StateArray.write (a : StateArray) (i : Int) (c : CChar) : Except Fault StateArray :=
  if h : 0 ≤ i ∧ i < 256 then
    .ok (a.set ⟨i.toNat, by unfold STATE_ARRAY_SIZE; omega⟩ c)
  else
    .error .indexOutOfRange

/-- The read `a[i]` of a caller-supplied array `char a[]` holding `a.length`
objects, at a `size_t` index. -/
def readChars (a : List CChar) (i : Nat) : Except Fault CChar :=
  match a[i]? with
  | some c => .ok c
  | none => .error .indexOutOfRange

/-- The `size_t` expression `a % b`. -/
def sizeMod (a b : Nat) : Except Fault Nat :=
  if b = 0 then .error .divisionByZero else .ok (a % b)

/-! ## The program state and the three functions -/

/-- The two global arrays of the C file. -/
structure RC4 where
  shadowS : StateArray
  S : StateArray

/-- The globals at program start: `= { 0 }` zero-fills both arrays. -/
def RC4.start : RC4 :=
  ⟨Mathlib.Vector.replicate STATE_ARRAY_SIZE (CChar.ofInt 0),
   Mathlib.Vector.replicate STATE_ARRAY_SIZE (CChar.ofInt 0)⟩

/-- The loop of `InitShadowS` with `n` iterations left, at index `i`:
`shadowS[i] = (char)i;`. -/
def InitShadowS.loop : Nat → Nat → StateArray → Except Fault StateArray
  | 0, _, sh => .ok sh
  | n + 1, i, sh => do
    let sh ← sh.write i (CChar.ofInt i)
    InitShadowS.loop n (i + 1) sh

/-- `void InitShadowS()`: `for (size_t i = 0; i < STATE_ARRAY_SIZE; i++)`. -/
def InitShadowS (st : RC4) : Except Fault RC4 := do
  let sh ← InitShadowS.loop STATE_ARRAY_SIZE 0 st.shadowS
  .ok ⟨sh, st.S⟩

/-- One iteration of the loop of `Init`, at index `i` with the running `j`:
```
j = (j + S[i] + key[i % key_length]) & 0xFF;
temp = S[i]; S[i] = S[j]; S[j] = temp;
```
The key is the array `key[0..key_length-1]`. -/
def Init.body (key : List CChar) (i : Nat) (j : Int) (S : StateArray) :
    Except Fault (Int × StateArray) := do
  let si ← S.read i
  let ki ← sizeMod i key.length
  let k ← readChars key ki
  let j := (j + si.val + k.val) % 256
  let temp ← S.read i
  let sj ← S.read j
  let S ← S.write i sj
  let S ← S.write j temp
  .ok (j, S)

/-- The loop of `Init` with `n` iterations left, at index `i`. -/
def Init.loop (key : List CChar) : Nat → Nat → Int → StateArray → Except Fault StateArray
  | 0, _, _, S => .ok S
  | n + 1, i, j, S => do
    let (j, S) ← Init.body key i j S
    Init.loop key n (i + 1) j S

/-- `void Init(char key[], size_t key_length)`: `memcpy(S, shadowS, ...)`,
`int j = 0`, then `for (size_t i = 0; i < STATE_ARRAY_SIZE; i++)`. -/
def Init (st : RC4) (key : List CChar) : Except Fault RC4 := do
  let S ← Init.loop key STATE_ARRAY_SIZE 0 0 st.shadowS
  .ok ⟨st.shadowS, S⟩

/-- One iteration of the loop of `Encrypt`, at position `cnt` with the running
`i` and `j`; the last component is the byte assigned to `output[cnt]`:
```
i = (i + 1) & 0xFF;
j = (j + S[i]) & 0xFF;
temp = S[i]; S[i] = S[j]; S[j] = temp;
output[cnt] = (char)(input[cnt] ^ S[(S[i] + S[j]) & 0xFF]);
```
-/
def Encrypt.body (input : List CChar) (cnt : Nat) (i j : Int) (S : StateArray) :
    Except Fault (Int × Int × StateArray × CChar) := do
  let i := (i + 1) % 256
  let si ← S.read i
  let j := (j + si.val) % 256
  let temp ← S.read i
  let sj ← S.read j
  let S ← S.write i sj
  let S ← S.write j temp
  let x ← readChars input cnt
  let a ← S.read i
  let b ← S.read j
  let k ← S.read ((a.val + b.val) % 256)
  .ok (i, j, S, CChar.xor x k)

/-- The loop of `Encrypt` with `n` iterations left, at position `cnt`;
`output` holds the bytes assigned to `output[0..cnt-1]` so far. -/
def Encrypt.loop (input : List CChar) :
    Nat → Nat → Int → Int → StateArray → List CChar → Except Fault (StateArray × List CChar)
  | 0, _, _, _, S, output => .ok (S, output)
  | n + 1, cnt, i, j, S, output => do
    let (i, j, S, c) ← Encrypt.body input cnt i j S
    Encrypt.loop input n (cnt + 1) i j S (output ++ [c])

/-- `void Encrypt(char input[], size_t input_length, char output[])`:
`int i = 0; int j = 0;` then `for (size_t cnt = 0; cnt < input_length; cnt++)`.
The input is the array `input[0..input_length-1]`; the result carries the
bytes written to `output[0..input_length-1]`. -/
def Encrypt (st : RC4) (input : List CChar) : Except Fault (RC4 × List CChar) := do
  let (S, output) ← Encrypt.loop input input.length 0 0 0 st.S []
  .ok (⟨st.shadowS, S⟩, output)

/-! ## Fault-free readings of the loop bodies

The checked functions above never fault on a non-empty key and an in-range
position; the functions below are what they then compute, written without the
checks.  They are used to state and prove the lemmas about the loops. -/

/-- The index `x & 0xFF` as a position of a state array. -/
def idx (x : Int) : Fin STATE_ARRAY_SIZE :=
  ⟨(x % 256).toNat, by unfold STATE_ARRAY_SIZE; omega⟩

/-- The three assignments `temp = S[a]; S[a] = S[b]; S[b] = temp;`. -/
def swapAt (S : StateArray) (a b : Fin STATE_ARRAY_SIZE) : StateArray :=
  (S.set a (S.get b)).set b (S.get a)

/-- The running `j` after one iteration of the loop of `Init`. -/
def ksaJ (key : List CChar) (i : Nat) (j : Int) (S : StateArray) : Int :=
  (j + (S.get (idx i)).val + (key.getD (i % key.length) default).val) % 256

/-- The array after one iteration of the loop of `Init`. -/
def ksaS (key : List CChar) (i : Nat) (j : Int) (S : StateArray) : StateArray :=
  swapAt S (idx i) (idx (ksaJ key i j S))

/-- The array after `n` iterations of the loop of `Init` from index `i`. -/
def ksaLoop (key : List CChar) : Nat → Nat → Int → StateArray → StateArray
  | 0, _, _, S => S
  | n + 1, i, j, S => ksaLoop key n (i + 1) (ksaJ key i j S) (ksaS key i j S)

/-- The running `i` after one iteration of the loop of `Encrypt`. -/
def prgaI (i : Int) : Int := (i + 1) % 256

/-- The running `j` after one iteration of the loop of `Encrypt`. -/
def prgaJ (i j : Int) (S : StateArray) : Int :=
  (j + (S.get (idx (prgaI i))).val) % 256

/-- The array after one iteration of the loop of `Encrypt`. -/
def prgaS (i j : Int) (S : StateArray) : StateArray :=
  swapAt S (idx (prgaI i)) (idx (prgaJ i j S))

/-- The keystream byte `S[(S[i] + S[j]) & 0xFF]` of one iteration of the loop
of `Encrypt`. -/
def prgaK (i j : Int) (S : StateArray) : CChar :=
  (prgaS i j S).get
    (idx ((((prgaS i j S).get (idx (prgaI i))).val +
      ((prgaS i j S).get (idx (prgaJ i j S))).val) % 256))

/-- The array after `n` iterations of the loop of `Encrypt`. -/
def prgaState : Nat → Int → Int → StateArray → StateArray
  | 0, _, _, S => S
  | n + 1, i, j, S => prgaState n (prgaI i) (prgaJ i j S) (prgaS i j S)

/-- The keystream bytes of `n` iterations of the loop of `Encrypt`. -/
def keystream : Nat → Int → Int → StateArray → List CChar
  | 0, _, _, _ => []
  | n + 1, i, j, S => prgaK i j S :: keystream n (prgaI i) (prgaJ i j S) (prgaS i j S)

/-- The bytes `Encrypt` assigns to `output` for the input bytes `xs` under the
keystream `ks`. -/
def xorBytes (xs ks : List CChar) : List CChar := List.zipWith CChar.xor xs ks

/-- The value of a `char` recovered from its unsigned reading. -/
def signExtend (n : Nat) : Int := if n < 128 then (n : Int) else (n : Int) - 256

/-- The identity array: entry `n` is `(char)n`. -/
def identityArray : StateArray :=
  Mathlib.Vector.ofFn (fun n => CChar.ofInt (Int.ofNat n.val))

/-- A state array read as unsigned bytes. -/
def bytes (S : StateArray) : List Nat := S.toList.map CChar.toNat

/-- The array read as unsigned bytes contains each value `0..255` exactly
once: it is a rearrangement of `[0, 1, ..., 255]`. -/
def IsPermutation (S : StateArray) : Prop :=
  (bytes S).Perm (List.range 256)

/-! ## The reference algorithms of the specification

These follow the words of the specification (sections 4.1 and 8), over
unsigned byte values `0..255` held in natural numbers. -/

/-- Reference: swap `state[i]` and `state[j]`. -/
def refSwap (state : List Nat) (i j : Nat) : List Nat :=
  (state.set i (state.getD j 0)).set j (state.getD i 0)

/-- Reference KSA, the step for index `i`:
`j = (j + state[i] + key[i mod L]) mod 256`, then swap `state[i]` and
`state[j]`.  The accumulator is the state and the carried `j`. -/
def refKSAStep (key : List Nat) (acc : List Nat × Nat) (i : Nat) : List Nat × Nat :=
  (refSwap acc.1 i ((acc.2 + acc.1.getD i 0 + key.getD (i % key.length) 0) % 256),
    (acc.2 + acc.1.getD i 0 + key.getD (i % key.length) 0) % 256)

/-- Reference KSA: start from the identity permutation with `j = 0` and run
the step for each index `i` from 0 to 255 in order. -/
def refKSA (key : List Nat) : List Nat :=
  ((List.range 256).foldl (refKSAStep key) (List.range 256, 0)).1

/-- Reference cipher instance: the permutation state and the two stream
cursors. -/
structure RefCipher where
  state : List Nat
  i : Nat
  j : Nat

/-- Reference `process`, one byte: `i = (i + 1) mod 256`,
`j = (j + state[i]) mod 256`, swap `state[i]` and `state[j]`,
`keystreamByte = state[(state[i] + state[j]) mod 256]`,
`outputByte = inputByte XOR keystreamByte`. -/
def refProcessByte (c : RefCipher) (x : Nat) : RefCipher × Nat :=
  let i := (c.i + 1) % 256
  let j := (c.j + c.state.getD i 0) % 256
  let state := refSwap c.state i j
  (⟨state, i, j⟩, x ^^^ state.getD ((state.getD i 0 + state.getD j 0) % 256) 0)

/-- Reference `process(input) -> output`, from the current cursor state. -/
def refProcess (c : RefCipher) : List Nat → RefCipher × List Nat
  | [] => (c, [])
  | x :: xs =>
    ((refProcess (refProcessByte c x).1 xs).1,
      (refProcessByte c x).2 :: (refProcess (refProcessByte c x).1 xs).2)

/-! ## Call sequences and test data -/

/-- A call of one of the two functions a client makes after `InitShadowS`. -/
inductive Call where
  | init (key : List CChar)
  | encrypt (input : List CChar)

/-- The state after one call; the output of an `Encrypt` call is dropped. -/
def Call.run (st : RC4) : Call → Except Fault RC4
  | .init key => Init st key
  | .encrypt input =>
    match Encrypt st input with
    | .ok (st1, _) => .ok st1
    | .error e => .error e

/-- The state after a sequence of calls, made one after the other. -/
def runCalls (st : RC4) : List Call → Except Fault RC4
  | [] => .ok st
  | c :: cs =>
    match c.run st with
    | .ok st1 => runCalls st1 cs
    | .error e => .error e

/-- A client session: `InitShadowS` once at the start, then the calls. -/
def runSession (st : RC4) (calls : List Call) : Except Fault RC4 :=
  match InitShadowS st with
  | .ok st0 => runCalls st0 calls
  | .error e => .error e

/-- The bytes of a character string as a `char` array (without a terminating
zero). -/
def chars (s : List Nat) : List CChar := s.map CChar.ofNat

/-- The 3-byte key `"Key"`. -/
def keyKey : List CChar := chars [0x4B, 0x65, 0x79]

/-- The 9-byte input `"Plaintext"`. -/
def plaintext : List CChar := chars [0x50, 0x6C, 0x61, 0x69, 0x6E, 0x74, 0x65, 0x78, 0x74]

/-- A key of 300 bytes, longer than the state array. -/
def longKey : List CChar := (List.range 300).map CChar.ofNat

/-- The array with every entry `0`: both globals at program start. -/
def zeroArray : StateArray := Mathlib.Vector.replicate STATE_ARRAY_SIZE (CChar.ofInt 0)

/-- The key formed by `m` copies of `K` one after the other. -/
def repeatKey (K : List CChar) : Nat → List CChar
  | 0 => []
  | m + 1 => K ++ repeatKey K m

/-! ## Basic facts about `char` values -/

theorem CChar.eq_of_val_eq {a b : CChar} (h : a.val = b.val) : a = b := by
  cases a; cases b; cases h; rfl

theorem CChar.toNat_lt (c : CChar) : c.toNat < 256 := by
  unfold CChar.toNat; omega

theorem CChar.toNat_inj {a b : CChar} (h : a.toNat = b.toNat) : a = b := by
  apply CChar.eq_of_val_eq
  have ha := a.lo; have ha2 := a.hi; have hb := b.lo; have hb2 := b.hi
  unfold CChar.toNat at h
  omega

theorem CChar.toNat_ofInt (x : Int) : (CChar.ofInt x).toNat = (x % 256).toNat := by
  unfold CChar.toNat CChar.ofInt
  simp only
  omega

theorem CChar.val_emod (c : CChar) : c.val % 256 = (c.toNat : Int) := by
  unfold CChar.toNat; omega

theorem CChar.val_eq_signExtend (c : CChar) : c.val = signExtend c.toNat := by
  have h1 := c.lo; have h2 := c.hi
  unfold signExtend CChar.toNat
  split <;> omega

theorem signExtend_of_lt {m : Nat} (h : m < 128) : signExtend m = Int.ofNat m := by
  unfold signExtend; simp [h]

theorem signExtend_of_ge {m : Nat} (h1 : 128 ≤ m) (h2 : m < 256) :
    signExtend m = Int.negSucc (255 - m) := by
  unfold signExtend
  rw [Int.negSucc_eq]
  split <;> omega

theorem ofNat_emod_toNat (k : Nat) : ((Int.ofNat k) % 256).toNat = k % 256 := by
  simp only [Int.ofNat_eq_coe]; omega

theorem negSucc_emod_toNat (k : Nat) : ((Int.negSucc k) % 256).toNat = 255 - k % 256 := by
  rw [Int.negSucc_eq]; omega

set_option maxRecDepth 100000 in
theorem complement_eq_xor : ∀ x, x < 256 → 255 - x = 255 ^^^ x := by decide

theorem xor_lt_256 {m n : Nat} (hm : m < 256) (hn : n < 256) : m ^^^ n < 256 :=
  @Nat.xor_lt_two_pow m n 8 hm hn

theorem xor_signExtend (m : Nat) (hm : m < 256) (n : Nat) (hn : n < 256) :
    ((Int.xor (signExtend m) (signExtend n)) % 256).toNat = m ^^^ n := by
  have hx := xor_lt_256 hm hn
  have hc := complement_eq_xor (m ^^^ n) hx
  by_cases h1 : m < 128 <;> by_cases h2 : n < 128
  · rw [signExtend_of_lt h1, signExtend_of_lt h2]
    show ((Int.ofNat (m ^^^ n)) % 256).toNat = m ^^^ n
    rw [ofNat_emod_toNat]; omega
  · rw [signExtend_of_lt h1, signExtend_of_ge (by omega) hn]
    show ((Int.negSucc (m ^^^ (255 - n))) % 256).toNat = m ^^^ n
    rw [negSucc_emod_toNat, complement_eq_xor n hn]
    have e : m ^^^ (255 ^^^ n) = 255 ^^^ (m ^^^ n) := by
      rw [Nat.xor_comm 255 (m ^^^ n), Nat.xor_assoc, Nat.xor_comm 255 n]
    rw [e, ← hc]; omega
  · rw [signExtend_of_ge (by omega) hm, signExtend_of_lt h2]
    show ((Int.negSucc ((255 - m) ^^^ n)) % 256).toNat = m ^^^ n
    rw [negSucc_emod_toNat, complement_eq_xor m hm, Nat.xor_assoc, ← hc]; omega
  · rw [signExtend_of_ge (by omega) hm, signExtend_of_ge (by omega) hn]
    show ((Int.ofNat ((255 - m) ^^^ (255 - n))) % 256).toNat = m ^^^ n
    rw [ofNat_emod_toNat, complement_eq_xor m hm, complement_eq_xor n hn]
    have e : (255 ^^^ m) ^^^ (255 ^^^ n) = m ^^^ n := by
      rw [Nat.xor_comm 255 m, Nat.xor_assoc, ← Nat.xor_assoc 255 255 n, Nat.xor_self,
        Nat.zero_xor]
    rw [e]; omega

theorem CChar.toNat_xor (a b : CChar) : (CChar.xor a b).toNat = a.toNat ^^^ b.toNat := by
  unfold CChar.xor
  rw [CChar.toNat_ofInt, CChar.val_eq_signExtend a, CChar.val_eq_signExtend b]
  exact xor_signExtend _ a.toNat_lt _ b.toNat_lt

theorem CChar.xor_xor_cancel (p k : CChar) : CChar.xor (CChar.xor p k) k = p := by
  apply CChar.toNat_inj
  rw [CChar.toNat_xor, CChar.toNat_xor, Nat.xor_assoc, Nat.xor_self, Nat.xor_zero]

theorem CChar.toNat_ofNat (n : Nat) : (CChar.ofNat n).toNat = n % 256 := by
  unfold CChar.ofNat
  rw [CChar.toNat_ofInt, ofNat_emod_toNat]

theorem CChar.ofNat_toNat (c : CChar) : CChar.ofNat c.toNat = c := by
  apply CChar.toNat_inj
  rw [CChar.toNat_ofNat]
  have := c.toNat_lt
  omega

/-! ## The checked accesses never fault inside the loops -/

theorem idx_val_of_range {i : Int} (h0 : 0 ≤ i) (h1 : i < 256) : (idx i).val = i.toNat := by
  simp only [idx]
  omega

theorem idx_natCast_val {i : Nat} (h : i < 256) : (idx (i : Int)).val = i := by
  simp only [idx]
  omega

theorem read_of_range (S : StateArray) {i : Int} (h0 : 0 ≤ i) (h1 : i < 256) :
    S.read i = .ok (S.get (idx i)) := by
  unfold StateArray.read
  rw [dif_pos ⟨h0, h1⟩]
  congr 2
  apply Fin.ext
  rw [idx_val_of_range h0 h1]

theorem write_of_range (S : StateArray) {i : Int} (h0 : 0 ≤ i) (h1 : i < 256) (c : CChar) :
    S.write i c = .ok (S.set (idx i) c) := by
  unfold StateArray.write
  rw [dif_pos ⟨h0, h1⟩]
  congr 2
  apply Fin.ext
  rw [idx_val_of_range h0 h1]

theorem read_emod (S : StateArray) (x : Int) : S.read (x % 256) = .ok (S.get (idx (x % 256))) :=
  read_of_range S (by omega) (by omega)

theorem write_emod (S : StateArray) (x : Int) (c : CChar) :
    S.write (x % 256) c = .ok (S.set (idx (x % 256)) c) :=
  write_of_range S (by omega) (by omega) c

theorem read_natCast (S : StateArray) {i : Nat} (h : i < 256) :
    S.read (i : Int) = .ok (S.get (idx i)) :=
  read_of_range S (by omega) (by omega)

theorem write_natCast (S : StateArray) {i : Nat} (h : i < 256) (c : CChar) :
    S.write (i : Int) c = .ok (S.set (idx i) c) :=
  write_of_range S (by omega) (by omega) c

theorem readChars_of_lt (a : List CChar) {i : Nat} (h : i < a.length) :
    readChars a i = .ok (a.getD i default) := by
  unfold readChars
  rw [List.getD_eq_getElem?_getD, List.getElem?_eq_getElem h]
  rfl

theorem sizeMod_of_pos (a : Nat) {b : Nat} (h : 0 < b) : sizeMod a b = .ok (a % b) := by
  unfold sizeMod
  rw [if_neg (by omega)]

theorem Init_body_eq (key : List CChar) (hk : 0 < key.length) {i : Nat} (hi : i < 256)
    (j : Int) (S : StateArray) :
    Init.body key i j S = .ok (ksaJ key i j S, ksaS key i j S) := by
  unfold Init.body
  simp only [read_natCast S hi, sizeMod_of_pos i hk, readChars_of_lt key (Nat.mod_lt i hk),
    read_emod, write_natCast _ hi, write_emod, bind, Except.bind]
  rfl

theorem Init_loop_eq (key : List CChar) (hk : 0 < key.length) (n : Nat) :
    ∀ (i : Nat) (j : Int) (S : StateArray), i + n ≤ 256 →
      Init.loop key n i j S = .ok (ksaLoop key n i j S) := by
  induction n with
  | zero => intro i j S _; rfl
  | succ n ih =>
    intro i j S h
    have hi : i < 256 := by omega
    rw [Init.loop, Init_body_eq key hk hi, ksaLoop]
    exact ih (i + 1) _ _ (by omega)

theorem Encrypt_body_eq (input : List CChar) {cnt : Nat} (hc : cnt < input.length)
    (i j : Int) (S : StateArray) :
    Encrypt.body input cnt i j S =
      .ok (prgaI i, prgaJ i j S, prgaS i j S, CChar.xor (input.getD cnt default) (prgaK i j S)) := by
  unfold Encrypt.body
  simp only [read_emod, write_emod, readChars_of_lt input hc, bind, Except.bind]
  rfl

theorem keystream_length (n : Nat) :
    ∀ (i j : Int) (S : StateArray), (keystream n i j S).length = n := by
  induction n with
  | zero => intro i j S; rfl
  | succ n ih => intro i j S; simp [keystream, ih]

theorem Encrypt_loop_eq (input : List CChar) (n : Nat) :
    ∀ (cnt : Nat) (i j : Int) (S : StateArray) (output : List CChar),
      cnt + n ≤ input.length →
      Encrypt.loop input n cnt i j S output =
        .ok (prgaState n i j S,
          output ++ xorBytes ((input.drop cnt).take n) (keystream n i j S)) := by
  induction n with
  | zero => intro cnt i j S output _; simp [Encrypt.loop, prgaState, xorBytes]
  | succ n ih =>
    intro cnt i j S output h
    have hc : cnt < input.length := by omega
    rw [Encrypt.loop, Encrypt_body_eq input hc]
    show Encrypt.loop input n (cnt + 1) _ _ _ _ = _
    rw [ih (cnt + 1) _ _ _ _ (by omega), prgaState, keystream]
    have hd : input.drop cnt = input.getD cnt default :: input.drop (cnt + 1) := by
      rw [List.getD_eq_getElem _ _ hc]
      exact List.drop_eq_getElem_cons hc
    rw [hd]
    simp [xorBytes]

theorem Encrypt_eq (st : RC4) (input : List CChar) :
    Encrypt st input =
      .ok (⟨st.shadowS, prgaState input.length 0 0 st.S⟩,
        xorBytes input (keystream input.length 0 0 st.S)) := by
  unfold Encrypt
  rw [Encrypt_loop_eq input input.length 0 0 0 st.S [] (by omega)]
  simp [bind, Except.bind]

theorem Init_eq (st : RC4) (key : List CChar) (hk : 0 < key.length) :
    Init st key = .ok ⟨st.shadowS, ksaLoop key 256 0 0 st.shadowS⟩ := by
  unfold Init
  rw [Init_loop_eq key hk 256 0 0 st.shadowS (by omega)]
  rfl

theorem InitShadowS_loop_spec (n : Nat) :
    ∀ (i : Nat) (sh : StateArray), i + n ≤ 256 →
      ∃ sh', InitShadowS.loop n i sh = .ok sh' ∧
        ∀ k : Fin STATE_ARRAY_SIZE, sh'.get k =
          if i ≤ k.val ∧ k.val < i + n then CChar.ofInt (Int.ofNat k.val) else sh.get k := by
  induction n with
  | zero =>
    intro i sh _
    refine ⟨sh, rfl, fun k => ?_⟩
    rw [if_neg (by omega)]
  | succ n ih =>
    intro i sh h
    have hi : i < 256 := by omega
    obtain ⟨sh', h1, h2⟩ := ih (i + 1) (sh.set (idx i) (CChar.ofInt i)) (by omega)
    refine ⟨sh', ?_, fun k => ?_⟩
    · rw [InitShadowS.loop, write_natCast sh hi]
      exact h1
    · rw [h2 k]
      by_cases hk : k.val = i
      · have e : idx (i : Int) = k := Fin.ext (by rw [idx_natCast_val hi, hk])
        rw [if_neg (by omega), if_pos (by omega), e, Mathlib.Vector.get_set_same, ← hk]
        rfl
      · have e : idx (i : Int) ≠ k := fun e => hk (by rw [← e, idx_natCast_val hi])
        rw [Mathlib.Vector.get_set_of_ne e]
        by_cases hr : i + 1 ≤ k.val ∧ k.val < i + 1 + n
        · rw [if_pos hr, if_pos (by omega)]
        · rw [if_neg hr, if_neg (by omega)]

theorem InitShadowS_eq (st : RC4) : InitShadowS st = .ok ⟨identityArray, st.S⟩ := by
  obtain ⟨sh', h1, h2⟩ := InitShadowS_loop_spec 256 0 st.shadowS (by omega)
  unfold InitShadowS
  rw [h1]
  have e : sh' = identityArray := by
    apply Mathlib.Vector.ext
    intro k
    have hk : k.val < 256 := k.isLt
    rw [h2 k, if_pos ⟨by omega, by omega⟩]
    simp [identityArray]
  rw [e]
  rfl

/-! ## Swaps and the unsigned reading of the state -/

theorem swapAt_eq_ofFn (S : StateArray) (a b : Fin STATE_ARRAY_SIZE) :
    swapAt S a b = Mathlib.Vector.ofFn (S.get ∘ Equiv.swap a b) := by
  apply Mathlib.Vector.ext
  intro m
  rw [Mathlib.Vector.get_ofFn, Function.comp_apply]
  unfold swapAt
  by_cases hb : m = b
  · subst hb
    rw [Mathlib.Vector.get_set_same, Equiv.swap_apply_right]
  · rw [Mathlib.Vector.get_set_of_ne (Ne.symm hb)]
    by_cases ha : m = a
    · subst ha
      rw [Mathlib.Vector.get_set_same, Equiv.swap_apply_left]
    · rw [Mathlib.Vector.get_set_of_ne (Ne.symm ha), Equiv.swap_apply_of_ne_of_ne ha hb]

theorem swapAt_toList_perm (S : StateArray) (a b : Fin STATE_ARRAY_SIZE) :
    (swapAt S a b).toList.Perm S.toList := by
  rw [swapAt_eq_ofFn, Mathlib.Vector.toList_ofFn]
  have h := Equiv.Perm.ofFn_comp_perm (Equiv.swap a b) S.get
  rw [← Mathlib.Vector.toList_ofFn S.get, Mathlib.Vector.ofFn_get] at h
  exact h

theorem isPermutation_swapAt {S : StateArray} (h : IsPermutation S)
    (a b : Fin STATE_ARRAY_SIZE) : IsPermutation (swapAt S a b) :=
  ((swapAt_toList_perm S a b).map CChar.toNat).trans h

theorem bytes_length (S : StateArray) : (bytes S).length = 256 := by
  simp [bytes]

theorem bytes_getD (S : StateArray) (a : Fin STATE_ARRAY_SIZE) :
    (bytes S).getD a.val 0 = (S.get a).toNat := by
  have h : a.val < (bytes S).length := by rw [bytes_length]; exact a.isLt
  rw [List.getD_eq_getElem _ _ h]
  simp [bytes, Mathlib.Vector.get_eq_get]

theorem bytes_set (S : StateArray) (a : Fin STATE_ARRAY_SIZE) (c : CChar) :
    bytes (S.set a c) = (bytes S).set a.val c.toNat := by
  simp [bytes, Mathlib.Vector.toList_set]

theorem bytes_swapAt (S : StateArray) (a b : Fin STATE_ARRAY_SIZE) :
    bytes (swapAt S a b) = refSwap (bytes S) a.val b.val := by
  unfold swapAt refSwap
  rw [bytes_set, bytes_set, bytes_getD, bytes_getD]

theorem bytes_inj {S T : StateArray} (h : bytes S = bytes T) : S = T := by
  apply Mathlib.Vector.ext
  intro m
  apply CChar.toNat_inj
  rw [← bytes_getD, ← bytes_getD, h]

theorem bytes_identityArray : bytes identityArray = List.range 256 := by
  unfold bytes identityArray
  rw [Mathlib.Vector.toList_ofFn, List.map_ofFn, ← List.map_coe_finRange, List.ofFn_eq_map]
  apply List.map_congr_left
  intro k _
  have hk : k.val < 256 := k.isLt
  rw [Function.comp_apply, CChar.toNat_ofInt, ofNat_emod_toNat]
  omega

theorem identityArray_isPermutation : IsPermutation identityArray := by
  unfold IsPermutation
  rw [bytes_identityArray]

theorem ksaLoop_isPermutation (key : List CChar) (n : Nat) :
    ∀ (i : Nat) (j : Int) (S : StateArray), IsPermutation S →
      IsPermutation (ksaLoop key n i j S) := by
  induction n with
  | zero => intro i j S h; exact h
  | succ n ih => intro i j S h; exact ih _ _ _ (isPermutation_swapAt h _ _)

theorem prgaState_isPermutation (n : Nat) :
    ∀ (i j : Int) (S : StateArray), IsPermutation S → IsPermutation (prgaState n i j S) := by
  induction n with
  | zero => intro i j S h; exact h
  | succ n ih => intro i j S h; exact ih _ _ _ (isPermutation_swapAt h _ _)

/-! ## The loops against the reference algorithms -/

theorem idx_val (x : Int) : (idx x).val = (x % 256).toNat := rfl

theorem toNat_default : (default : CChar).toNat = 0 := by decide

theorem refKSAStep_bytes (key : List CChar) (i : Nat) (hi : i < 256) (j : Int)
    (hj0 : 0 ≤ j) (hj1 : j < 256) (S : StateArray) :
    refKSAStep (key.map CChar.toNat) (bytes S, j.toNat) i =
      (bytes (ksaS key i j S), (ksaJ key i j S).toNat) := by
  have hk : (key.map CChar.toNat).getD (i % (key.map CChar.toNat).length) 0 =
      (key.getD (i % key.length) default).toNat := by
    rw [List.length_map, ← toNat_default, List.getD_map]
  have hs : (bytes S).getD i 0 = (S.get (idx i)).toNat := by
    rw [← bytes_getD, idx_natCast_val hi]
  have hJ : (j.toNat + (S.get (idx i)).toNat + (key.getD (i % key.length) default).toNat) % 256 =
      (ksaJ key i j S).toNat := by
    unfold ksaJ
    have h1 := (S.get (idx i)).val_emod
    have h2 := (key.getD (i % key.length) default).val_emod
    omega
  have hJ2 : (idx (ksaJ key i j S)).val = (ksaJ key i j S).toNat := by
    rw [idx_val]; unfold ksaJ; omega
  unfold refKSAStep
  simp only [hk, hs, hJ]
  unfold ksaS
  rw [bytes_swapAt, idx_natCast_val hi, hJ2]

theorem ksaJ_range (key : List CChar) (i : Nat) (j : Int) (S : StateArray) :
    0 ≤ ksaJ key i j S ∧ ksaJ key i j S < 256 := by
  unfold ksaJ; omega

theorem refKSA_fold (key : List CChar) (n : Nat) :
    ∀ (i : Nat) (j : Int) (S : StateArray), i + n ≤ 256 → 0 ≤ j → j < 256 →
      ((List.range' i n).foldl (refKSAStep (key.map CChar.toNat)) (bytes S, j.toNat)).1 =
        bytes (ksaLoop key n i j S) := by
  induction n with
  | zero => intro i j S _ _ _; rfl
  | succ n ih =>
    intro i j S h hj0 hj1
    rw [List.range'_succ, List.foldl_cons, refKSAStep_bytes key i (by omega) j hj0 hj1 S, ksaLoop]
    exact ih (i + 1) _ _ (by omega) (ksaJ_range key i j S).1 (ksaJ_range key i j S).2

theorem refKSA_eq (key : List CChar) :
    refKSA (key.map CChar.toNat) = bytes (ksaLoop key 256 0 0 identityArray) := by
  have h := refKSA_fold key 256 0 0 identityArray (by omega) (by omega) (by omega)
  rw [bytes_identityArray, ← List.range_eq_range'] at h
  exact h

theorem prgaI_range (i : Int) : 0 ≤ prgaI i ∧ prgaI i < 256 := by
  unfold prgaI; omega

theorem prgaJ_range (i j : Int) (S : StateArray) : 0 ≤ prgaJ i j S ∧ prgaJ i j S < 256 := by
  unfold prgaJ; omega

theorem refProcessByte_bytes (i j : Int) (hi0 : 0 ≤ i) (hi1 : i < 256) (hj0 : 0 ≤ j)
    (hj1 : j < 256) (S : StateArray) (x : CChar) :
    refProcessByte ⟨bytes S, i.toNat, j.toNat⟩ x.toNat =
      (⟨bytes (prgaS i j S), (prgaI i).toNat, (prgaJ i j S).toNat⟩,
        (CChar.xor x (prgaK i j S)).toNat) := by
  have hI : (i.toNat + 1) % 256 = (prgaI i).toNat := by unfold prgaI; omega
  have hI2 : (idx (prgaI i)).val = (prgaI i).toNat := by rw [idx_val]; unfold prgaI; omega
  have hs : (bytes S).getD (prgaI i).toNat 0 = (S.get (idx (prgaI i))).toNat := by
    rw [← bytes_getD, hI2]
  have hJ : (j.toNat + (S.get (idx (prgaI i))).toNat) % 256 = (prgaJ i j S).toNat := by
    unfold prgaJ
    have h1 := (S.get (idx (prgaI i))).val_emod
    omega
  have hJ2 : (idx (prgaJ i j S)).val = (prgaJ i j S).toNat := by
    rw [idx_val]; unfold prgaJ; omega
  have hS : refSwap (bytes S) (prgaI i).toNat (prgaJ i j S).toNat = bytes (prgaS i j S) := by
    unfold prgaS; rw [bytes_swapAt, hI2, hJ2]
  have ha : (bytes (prgaS i j S)).getD (prgaI i).toNat 0 =
      ((prgaS i j S).get (idx (prgaI i))).toNat := by rw [← bytes_getD, hI2]
  have hb : (bytes (prgaS i j S)).getD (prgaJ i j S).toNat 0 =
      ((prgaS i j S).get (idx (prgaJ i j S))).toNat := by rw [← bytes_getD, hJ2]
  have hidx : (idx ((((prgaS i j S).get (idx (prgaI i))).val +
      ((prgaS i j S).get (idx (prgaJ i j S))).val) % 256)).val =
      (((prgaS i j S).get (idx (prgaI i))).toNat +
        ((prgaS i j S).get (idx (prgaJ i j S))).toNat) % 256 := by
    rw [idx_val]
    have h1 := ((prgaS i j S).get (idx (prgaI i))).val_emod
    have h2 := ((prgaS i j S).get (idx (prgaJ i j S))).val_emod
    omega
  have hK : (bytes (prgaS i j S)).getD
      ((((prgaS i j S).get (idx (prgaI i))).toNat +
        ((prgaS i j S).get (idx (prgaJ i j S))).toNat) % 256) 0 = (prgaK i j S).toNat := by
    rw [← hidx, bytes_getD]
    rfl
  unfold refProcessByte
  simp only [hI, hs, hJ, hS, ha, hb, hK, CChar.toNat_xor]

theorem refProcess_bytes (xs : List CChar) :
    ∀ (i j : Int) (S : StateArray), 0 ≤ i → i < 256 → 0 ≤ j → j < 256 →
      (refProcess ⟨bytes S, i.toNat, j.toNat⟩ (xs.map CChar.toNat)).1.state =
          bytes (prgaState xs.length i j S) ∧
        (refProcess ⟨bytes S, i.toNat, j.toNat⟩ (xs.map CChar.toNat)).2 =
          (xorBytes xs (keystream xs.length i j S)).map CChar.toNat := by
  induction xs with
  | nil => intro i j S _ _ _ _; exact ⟨rfl, rfl⟩
  | cons x xs ih =>
    intro i j S hi0 hi1 hj0 hj1
    have h := ih (prgaI i) (prgaJ i j S) (prgaS i j S) (prgaI_range i).1 (prgaI_range i).2
      (prgaJ_range i j S).1 (prgaJ_range i j S).2
    simp only [List.map_cons, refProcess, refProcessByte_bytes i j hi0 hi1 hj0 hj1 S x,
      List.length_cons, prgaState, keystream, xorBytes, List.zipWith_cons_cons]
    exact ⟨h.1, by rw [h.2]; rfl⟩

/-! ## Keystream and output lemmas -/

theorem xorBytes_length (xs ks : List CChar) (h : xs.length ≤ ks.length) :
    (xorBytes xs ks).length = xs.length := by
  simp only [xorBytes, List.length_zipWith]
  omega

theorem xorBytes_cancel (xs : List CChar) :
    ∀ ks : List CChar, xs.length ≤ ks.length → xorBytes (xorBytes xs ks) ks = xs := by
  induction xs with
  | nil => intro ks _; simp [xorBytes]
  | cons x xs ih =>
    intro ks h
    cases ks with
    | nil => simp at h
    | cons k ks =>
      have h2 : xs.length ≤ ks.length := by simpa using h
      have h3 := ih ks h2
      simp only [xorBytes] at h3
      simp only [xorBytes, List.zipWith_cons_cons, CChar.xor_xor_cancel, h3]

theorem keystream_take (s : Nat) :
    ∀ (n : Nat) (i j : Int) (S : StateArray), s ≤ n →
      (keystream n i j S).take s = keystream s i j S := by
  induction s with
  | zero => intro n i j S _; simp [keystream]
  | succ s ih =>
    intro n i j S h
    cases n with
    | zero => omega
    | succ n =>
      simp only [keystream, List.take_succ_cons]
      rw [ih n _ _ _ (by omega)]

theorem xorBytes_take (xs ks : List CChar) (s : Nat) :
    (xorBytes xs ks).take s = xorBytes (xs.take s) (ks.take s) := by
  simp only [xorBytes, List.take_zipWith]

theorem Encrypt_output_length (st : RC4) (input : List CChar) :
    (xorBytes input (keystream input.length 0 0 st.S)).length = input.length :=
  xorBytes_length _ _ (by rw [keystream_length])

theorem Init_mk (sh S : StateArray) (key : List CChar) (hk : 0 < key.length) :
    Init ⟨sh, S⟩ key = .ok ⟨sh, ksaLoop key 256 0 0 sh⟩ :=
  Init_eq ⟨sh, S⟩ key hk

theorem Encrypt_mk (sh S : StateArray) (input : List CChar) :
    Encrypt ⟨sh, S⟩ input =
      .ok (⟨sh, prgaState input.length 0 0 S⟩,
        xorBytes input (keystream input.length 0 0 S)) :=
  Encrypt_eq ⟨sh, S⟩ input

theorem keyed (st : RC4) (K : List CChar) (hK : 1 ≤ K.length) :
    ∃ st0 st1, InitShadowS st = .ok st0 ∧ Init st0 K = .ok st1 ∧
      st1.shadowS = identityArray ∧ st1.S = ksaLoop K 256 0 0 identityArray :=
  ⟨⟨identityArray, st.S⟩, ⟨identityArray, ksaLoop K 256 0 0 identityArray⟩,
    InitShadowS_eq st, Init_mk identityArray st.S K hK, by simp only, by simp only⟩

theorem Init_shadowS {st st1 : RC4} {key : List CChar} (h : Init st key = .ok st1) :
    st1.shadowS = st.shadowS := by
  unfold Init at h
  cases hl : Init.loop key STATE_ARRAY_SIZE 0 0 st.shadowS with
  | error e => rw [hl] at h; cases h
  | ok S => rw [hl] at h; cases h; rfl

theorem Call_run_shadowS {st st1 : RC4} {c : Call} (h : c.run st = .ok st1) :
    st1.shadowS = st.shadowS := by
  cases c with
  | init key => exact Init_shadowS h
  | encrypt input =>
    simp only [Call.run, Encrypt_eq] at h
    cases h
    rfl

theorem runCalls_shadowS (calls : List Call) :
    ∀ {st st1 : RC4}, runCalls st calls = .ok st1 → st1.shadowS = st.shadowS := by
  induction calls with
  | nil => intro st st1 h; cases h; rfl
  | cons c cs ih =>
    intro st st1 h
    unfold runCalls at h
    cases hc : c.run st with
    | error e => rw [hc] at h; cases h
    | ok st2 =>
      rw [hc] at h
      rw [ih h, Call_run_shadowS hc]

theorem InitShadowS_ok (st : RC4) :
    ∃ st0, InitShadowS st = .ok st0 ∧ st0.shadowS = identityArray ∧ st0.S = st.S :=
  ⟨⟨identityArray, st.S⟩, InitShadowS_eq st, by simp only, by simp only⟩

theorem Init_ok (st : RC4) (K : List CChar) (hK : 1 ≤ K.length) :
    ∃ st1, Init st K = .ok st1 ∧ st1.shadowS = st.shadowS ∧
      st1.S = ksaLoop K 256 0 0 st.shadowS :=
  ⟨⟨st.shadowS, ksaLoop K 256 0 0 st.shadowS⟩, Init_eq st K hK, by simp only, by simp only⟩

theorem Encrypt_ok (st : RC4) (input : List CChar) :
    ∃ st1 out, Encrypt st input = .ok (st1, out) ∧ st1.shadowS = st.shadowS ∧
      st1.S = prgaState input.length 0 0 st.S ∧
      out = xorBytes input (keystream input.length 0 0 st.S) :=
  ⟨⟨st.shadowS, prgaState input.length 0 0 st.S⟩,
    xorBytes input (keystream input.length 0 0 st.S), Encrypt_eq st input, by simp only,
    by simp only, by simp only⟩

theorem Call_run_init (st : RC4) (key : List CChar) : (Call.init key).run st = Init st key := rfl

theorem Call_run_encrypt {st st1 : RC4} {input out : List CChar}
    (h : Encrypt st input = .ok (st1, out)) : (Call.encrypt input).run st = .ok st1 := by
  rw [Call.run, h]

theorem runCalls_cons {st st1 : RC4} {c : Call} (cs : List Call) (h : c.run st = .ok st1) :
    runCalls st (c :: cs) = runCalls st1 cs := by
  rw [runCalls, h]

theorem runSession_eq {st st0 : RC4} (calls : List Call) (h : InitShadowS st = .ok st0) :
    runSession st calls = runCalls st0 calls := by
  unfold runSession
  rw [h]

theorem count_of_perm_range {l : List Nat} (h : l.Perm (List.range 256)) (v : Nat)
    (hv : v < 256) : l.count v = 1 := by
  rw [h.count_eq]
  exact List.count_eq_one_of_mem (List.nodup_range 256) (List.mem_range.mpr hv)

/-! ## The claims -/

/-- C1. Round trip: with `InitShadowS` run beforehand, for every key `K` of
length at least 1 and every byte sequence `P`, the calls `Init(K)`,
`Encrypt(P)` giving `C`, `Init(K)` again and `Encrypt(C)` all complete, and the
last one writes exactly `P`. -/
theorem C1_round_trip (st : RC4) (K P : List CChar) (hK : 1 ≤ K.length) :
    ∃ st0 st1 st2 st3 st4 C,
      InitShadowS st = .ok st0 ∧ Init st0 K = .ok st1 ∧ Encrypt st1 P = .ok (st2, C) ∧
      Init st2 K = .ok st3 ∧ Encrypt st3 C = .ok (st4, P) := by
  have h0 := InitShadowS_eq st
  have h1 := Init_mk identityArray st.S K hK
  have h2 := Encrypt_mk identityArray (ksaLoop K 256 0 0 identityArray) P
  have h3 := Init_mk identityArray (prgaState P.length 0 0 (ksaLoop K 256 0 0 identityArray)) K hK
  have h4 := Encrypt_mk identityArray (ksaLoop K 256 0 0 identityArray)
    (xorBytes P (keystream P.length 0 0 (ksaLoop K 256 0 0 identityArray)))
  rw [xorBytes_length _ _ (by rw [keystream_length]),
    xorBytes_cancel P _ (by rw [keystream_length])] at h4
  exact ⟨_, _, _, _, _, _, h0, h1, h2, h3, h4⟩

/-- Witness of C1 for the key "Key" and the input "Plaintext". -/
theorem C1_round_trip_witness :
    1 ≤ keyKey.length ∧
    ∃ st0 st1 st2 st3 st4 C,
      InitShadowS RC4.start = .ok st0 ∧ Init st0 keyKey = .ok st1 ∧
      Encrypt st1 plaintext = .ok (st2, C) ∧
      Init st2 keyKey = .ok st3 ∧ Encrypt st3 C = .ok (st4, plaintext) :=
  ⟨by decide, C1_round_trip RC4.start keyKey plaintext (by decide)⟩

set_option maxRecDepth 1000000 in
/-- C2. Known-answer vector: after `InitShadowS` and `Init` with the 3-byte
key "Key", `Encrypt` of the 9-byte input "Plaintext" completes and writes
exactly the bytes BB F3 16 E8 D9 40 AF 0A D3, read as unsigned values. -/
theorem C2_known_answer (st : RC4) :
    ∃ st0 st1 st2 out,
      InitShadowS st = .ok st0 ∧ Init st0 keyKey = .ok st1 ∧
      Encrypt st1 plaintext = .ok (st2, out) ∧
      out.map CChar.toNat = [0xBB, 0xF3, 0x16, 0xE8, 0xD9, 0x40, 0xAF, 0x0A, 0xD3] := by
  have h0 := InitShadowS_eq st
  have h1 := Init_mk identityArray st.S keyKey (by decide)
  have h2 := Encrypt_mk identityArray (ksaLoop keyKey 256 0 0 identityArray) plaintext
  exact ⟨_, _, _, _, h0, h1, h2, by decide!⟩

set_option maxRecDepth 1000000 in
/-- C3, counterexample. With the key "Key" and the input "Plaintext" split at
`s = 1`, the two `Encrypt` calls complete but their concatenated outputs differ
from the output of the single call: `Encrypt` starts again from `i = j = 0` on
every call. -/
theorem C3_streaming_counterexample :
    ∃ st0 st1 stA stB stW out1 out2 outW,
      InitShadowS RC4.start = .ok st0 ∧ Init st0 keyKey = .ok st1 ∧
      Encrypt st1 (plaintext.take 1) = .ok (stA, out1) ∧
      Encrypt stA (plaintext.drop 1) = .ok (stB, out2) ∧
      Encrypt st1 plaintext = .ok (stW, outW) ∧
      (out1 ++ out2).map CChar.toNat = [0xBB, 0x39, 0xDE, 0x5E, 0x0D, 0x0A, 0x09, 0x3C, 0xF4] ∧
      outW.map CChar.toNat = [0xBB, 0xF3, 0x16, 0xE8, 0xD9, 0x40, 0xAF, 0x0A, 0xD3] ∧
      out1 ++ out2 ≠ outW := by
  have h0 := InitShadowS_eq RC4.start
  have h1 := Init_mk identityArray RC4.start.S keyKey (by decide)
  have h2 := Encrypt_mk identityArray (ksaLoop keyKey 256 0 0 identityArray) (plaintext.take 1)
  have h3 := Encrypt_mk identityArray
    (prgaState (plaintext.take 1).length 0 0 (ksaLoop keyKey 256 0 0 identityArray))
    (plaintext.drop 1)
  have h4 := Encrypt_mk identityArray (ksaLoop keyKey 256 0 0 identityArray) plaintext
  have e1 : (xorBytes (plaintext.take 1)
        (keystream (plaintext.take 1).length 0 0 (ksaLoop keyKey 256 0 0 identityArray)) ++
      xorBytes (plaintext.drop 1)
        (keystream (plaintext.drop 1).length 0 0
          (prgaState (plaintext.take 1).length 0 0
            (ksaLoop keyKey 256 0 0 identityArray)))).map CChar.toNat =
      [0xBB, 0x39, 0xDE, 0x5E, 0x0D, 0x0A, 0x09, 0x3C, 0xF4] := by decide!
  have e2 : (xorBytes plaintext
      (keystream plaintext.length 0 0 (ksaLoop keyKey 256 0 0 identityArray))).map CChar.toNat =
      [0xBB, 0xF3, 0x16, 0xE8, 0xD9, 0x40, 0xAF, 0x0A, 0xD3] := by decide!
  refine ⟨_, _, _, _, _, _, _, _, h0, h1, h2, h3, h4, e1, e2, ?_⟩
  intro h
  rw [h, e2] at e1
  revert e1
  decide

/-- C3, amended. For every key `K` of length at least 1, every input `P` and
every split point `s ≤ |P|`, after `InitShadowS` and `Init(K)` the calls
`Encrypt(P[0:s])`, `Encrypt(P[s:])` and the single call `Encrypt(P)` all
complete; the output of the first call is the first `s` bytes of the output of
the single call, the two outputs together have `|P|` bytes, and when `s = 0`
or `s = |P|` the concatenated outputs equal the output of the single call. -/
theorem C3_streaming_amended (st : RC4) (K P : List CChar) (s : Nat) (hK : 1 ≤ K.length)
    (hs : s ≤ P.length) :
    ∃ st0 st1 stA stB stW out1 out2 outW,
      InitShadowS st = .ok st0 ∧ Init st0 K = .ok st1 ∧
      Encrypt st1 (P.take s) = .ok (stA, out1) ∧
      Encrypt stA (P.drop s) = .ok (stB, out2) ∧
      Encrypt st1 P = .ok (stW, outW) ∧
      out1 = outW.take s ∧ (out1 ++ out2).length = P.length ∧
      (s = 0 ∨ s = P.length → out1 ++ out2 = outW) := by
  have h0 := InitShadowS_eq st
  have h1 := Init_mk identityArray st.S K hK
  have h2 := Encrypt_mk identityArray (ksaLoop K 256 0 0 identityArray) (P.take s)
  have h3 := Encrypt_mk identityArray
    (prgaState (P.take s).length 0 0 (ksaLoop K 256 0 0 identityArray)) (P.drop s)
  have h4 := Encrypt_mk identityArray (ksaLoop K 256 0 0 identityArray) P
  have hl : (P.take s).length = s := by rw [List.length_take]; omega
  refine ⟨_, _, _, _, _, _, _, _, h0, h1, h2, h3, h4, ?_, ?_, ?_⟩
  · rw [xorBytes_take, keystream_take s P.length 0 0 _ hs, hl]
  · rw [List.length_append, xorBytes_length _ _ (by rw [keystream_length]),
      xorBytes_length _ _ (by rw [keystream_length]), hl, List.length_drop]
    omega
  · intro h
    rcases h with h | h
    · subst h
      simp [xorBytes, keystream, prgaState]
    · subst h
      simp [xorBytes, keystream]

/-- Witness of the amended C3 for the key "Key" and "Plaintext" split at 4. -/
theorem C3_streaming_amended_witness :
    1 ≤ keyKey.length ∧ 4 ≤ plaintext.length ∧
    ∃ st0 st1 stA stB stW out1 out2 outW,
      InitShadowS RC4.start = .ok st0 ∧ Init st0 keyKey = .ok st1 ∧
      Encrypt st1 (plaintext.take 4) = .ok (stA, out1) ∧
      Encrypt stA (plaintext.drop 4) = .ok (stB, out2) ∧
      Encrypt st1 plaintext = .ok (stW, outW) ∧
      out1 = outW.take 4 ∧ (out1 ++ out2).length = plaintext.length ∧
      (4 = 0 ∨ 4 = plaintext.length → out1 ++ out2 = outW) :=
  ⟨by decide, by decide, C3_streaming_amended RC4.start keyKey plaintext 4 (by decide) (by decide)⟩

/-- C4, counterexample. `Init` called with `key_length = 0` on a freshly
started cipher does not return an error result of its own: its first iteration
evaluates `i % key_length` with a zero divisor, which is a fault. -/
theorem C4_empty_key_counterexample :
    ∃ st0, InitShadowS RC4.start = .ok st0 ∧ Init st0 [] = .error Fault.divisionByZero :=
  ⟨_, InitShadowS_eq RC4.start, rfl⟩

/-- C4, amended. `Init` validates nothing and has no error result: called
with `key_length = 0` it runs into the division by zero of `i % key_length`
in its first iteration, from every state; called after `InitShadowS` with any
key of length 1 it completes and leaves `S` a permutation of `0..255`. -/
theorem C4_key_length_amended (st : RC4) :
    Init st [] = .error Fault.divisionByZero ∧
    ∀ k : CChar, ∃ st0 st1,
      InitShadowS st = .ok st0 ∧ Init st0 [k] = .ok st1 ∧ IsPermutation st1.S := by
  constructor
  · rfl
  · intro k
    obtain ⟨st0, st1, h0, h1, _, hS⟩ := keyed st [k] (Nat.le_refl 1)
    refine ⟨st0, st1, h0, h1, ?_⟩
    rw [hS]
    exact ksaLoop_isPermutation [k] 256 0 0 identityArray identityArray_isPermutation

/-- C5. For every key `K` of length at least 1, `InitShadowS` and `Init(K)`
complete and leave in `S`, read as unsigned bytes, a rearrangement of
`[0, 1, ..., 255]`: each value `0..255` occurs exactly once. -/
theorem C5_ksa_permutation (st : RC4) (K : List CChar) (hK : 1 ≤ K.length) :
    ∃ st0 st1,
      InitShadowS st = .ok st0 ∧ Init st0 K = .ok st1 ∧
      (bytes st1.S).Perm (List.range 256) ∧
      ∀ v, v < 256 → (bytes st1.S).count v = 1 := by
  have hp : IsPermutation (ksaLoop K 256 0 0 identityArray) :=
    ksaLoop_isPermutation K 256 0 0 identityArray identityArray_isPermutation
  obtain ⟨st0, st1, h0, h1, _, hS⟩ := keyed st K hK
  refine ⟨st0, st1, h0, h1, ?_, ?_⟩
  · rw [hS]; exact hp
  · intro v hv
    rw [hS]
    exact count_of_perm_range hp v hv

/-- Witness of C5 for the key "Key". -/
theorem C5_ksa_permutation_witness :
    1 ≤ keyKey.length ∧
    ∃ st0 st1,
      InitShadowS RC4.start = .ok st0 ∧ Init st0 keyKey = .ok st1 ∧
      (bytes st1.S).Perm (List.range 256) ∧
      ∀ v, v < 256 → (bytes st1.S).count v = 1 :=
  ⟨by decide, C5_ksa_permutation RC4.start keyKey (by decide)⟩

/-- C6. KSA equals its reference definition: for every key `K` of length
`L ≥ 1` (also `L > 256`), `InitShadowS` and `Init(K, L)` complete and the state
`S`, read as unsigned bytes, equals the reference KSA run on the unsigned key
bytes. -/
theorem C6_ksa_reference (st : RC4) (K : List CChar) (hK : 1 ≤ K.length) :
    ∃ st0 st1,
      InitShadowS st = .ok st0 ∧ Init st0 K = .ok st1 ∧
      bytes st1.S = refKSA (K.map CChar.toNat) := by
  obtain ⟨st0, st1, h0, h1, _, hS⟩ := keyed st K hK
  refine ⟨st0, st1, h0, h1, ?_⟩
  rw [hS, refKSA_eq]

/-- Witness of C6 for a key of 300 bytes. -/
theorem C6_ksa_reference_witness :
    1 ≤ longKey.length ∧
    ∃ st0 st1,
      InitShadowS RC4.start = .ok st0 ∧ Init st0 longKey = .ok st1 ∧
      bytes st1.S = refKSA (longKey.map CChar.toNat) :=
  ⟨by simp [longKey], C6_ksa_reference RC4.start longKey (by simp [longKey])⟩

/-- C7. `Encrypt` on signed `char` storage agrees with the unsigned reference
PRGA: for every 256-entry state `S` and every input, `Encrypt` completes, the
output has the length of the input, and output and final state, read as
unsigned bytes, are those of the reference `process` started on the unsigned
reading of `S` with cursors `i = j = 0`. -/
theorem C7_prga_reference (st : RC4) (input : List CChar) :
    ∃ st1 out,
      Encrypt st input = .ok (st1, out) ∧ out.length = input.length ∧
      out.map CChar.toNat =
        (refProcess ⟨bytes st.S, 0, 0⟩ (input.map CChar.toNat)).2 ∧
      bytes st1.S = (refProcess ⟨bytes st.S, 0, 0⟩ (input.map CChar.toNat)).1.state := by
  have h := refProcess_bytes input 0 0 st.S (by omega) (by omega) (by omega) (by omega)
  refine ⟨⟨st.shadowS, prgaState input.length 0 0 st.S⟩,
    xorBytes input (keystream input.length 0 0 st.S), Encrypt_eq st input,
    Encrypt_output_length st input, h.2.symm, ?_⟩
  simp only
  exact h.1.symm

/-- C8. Re-keying fully resets the cipher: with `InitShadowS` run once at the
start, after any sequence of completed `Init` and `Encrypt` calls, `Init(K)`
with a key of length at least 1 completes and leaves `S` equal to the state
`Init(K)` produces on the freshly started cipher, and the next `Encrypt` call
writes the same output as on the fresh cipher keyed with `K`. -/
theorem C8_rekey_resets (st stN : RC4) (calls : List Call) (K : List CChar)
    (hK : 1 ≤ K.length) (hN : runSession st calls = .ok stN) :
    ∃ st0 stR stF,
      InitShadowS st = .ok st0 ∧
      Init stN K = .ok stR ∧ Init st0 K = .ok stF ∧ stR.S = stF.S ∧
      ∀ input, ∃ sR sF out,
        Encrypt stR input = .ok (sR, out) ∧ Encrypt stF input = .ok (sF, out) := by
  obtain ⟨st0, h0, _, _⟩ := InitShadowS_ok st
  rw [runSession_eq calls h0] at hN
  obtain ⟨stR, hR, _, hRS⟩ := Init_ok stN K hK
  obtain ⟨stF, hF, _, hFS⟩ := Init_ok st0 K hK
  have hS : stR.S = stF.S := by rw [hRS, hFS, runCalls_shadowS calls hN]
  refine ⟨st0, stR, stF, h0, hR, hF, hS, fun input => ?_⟩
  obtain ⟨sR, oR, hER, _, _, hoR⟩ := Encrypt_ok stR input
  obtain ⟨sF, oF, hEF, _, _, hoF⟩ := Encrypt_ok stF input
  refine ⟨sR, sF, oR, hER, ?_⟩
  rw [hoR, hS, ← hoF]
  exact hEF

/-- Witness of C8: re-keying with "Key" after an earlier `Init` with a long
key and an `Encrypt` of "Plaintext". -/
theorem C8_rekey_resets_witness :
    1 ≤ keyKey.length ∧
    runSession RC4.start [Call.init longKey, Call.encrypt plaintext] =
      .ok ⟨identityArray, prgaState plaintext.length 0 0 (ksaLoop longKey 256 0 0 identityArray)⟩ ∧
    ∃ st0 stR stF,
      InitShadowS RC4.start = .ok st0 ∧
      Init ⟨identityArray,
          prgaState plaintext.length 0 0 (ksaLoop longKey 256 0 0 identityArray)⟩ keyKey =
        .ok stR ∧
      Init st0 keyKey = .ok stF ∧ stR.S = stF.S ∧
      ∀ input, ∃ sR sF out,
        Encrypt stR input = .ok (sR, out) ∧ Encrypt stF input = .ok (sF, out) :=
  have hrun : runSession RC4.start [Call.init longKey, Call.encrypt plaintext] =
      .ok ⟨identityArray,
        prgaState plaintext.length 0 0 (ksaLoop longKey 256 0 0 identityArray)⟩ := by
    rw [runSession_eq _ (InitShadowS_eq RC4.start),
      runCalls_cons _ ((Call_run_init _ longKey).trans
        (Init_mk identityArray RC4.start.S longKey (by simp [longKey]))),
      runCalls_cons _ (Call_run_encrypt
        (Encrypt_mk identityArray (ksaLoop longKey 256 0 0 identityArray) plaintext)),
      runCalls]
  ⟨by decide, hrun, C8_rekey_resets RC4.start _ _ keyKey (by decide) hrun⟩

/-- C9. Empty input: for every state, `Encrypt` with `input_length = 0`
completes, writes no output byte and leaves both arrays unchanged, so a
following `Encrypt` call behaves exactly as if the empty call had not been
made. -/
theorem C9_empty_input (st : RC4) :
    Encrypt st [] = .ok (st, []) ∧
    ∀ input, ∃ st1, Encrypt st [] = .ok (st1, []) ∧ st1.S = st.S ∧
      Encrypt st1 input = Encrypt st input :=
  ⟨rfl, fun _ => ⟨st, rfl, rfl, rfl⟩⟩

/-- C10. Permutation invariant under processing: for every state whose `S`
contains each value `0..255` exactly once and every input, every single loop
iteration of `Encrypt` (from any cursors) completes and leaves a permutation,
the state after the first `m` iterations is a permutation for every
`m ≤ input_length`, and so is the state after the whole call. -/
theorem C10_permutation_preserved (st : RC4) (input : List CChar) (h : IsPermutation st.S) :
    (∀ (S : StateArray) (cnt : Nat) (i j : Int), IsPermutation S → cnt < input.length →
      ∃ i1 j1 S1 c, Encrypt.body input cnt i j S = .ok (i1, j1, S1, c) ∧ IsPermutation S1) ∧
    (∀ m, m ≤ input.length →
      ∃ S1 out, Encrypt.loop input m 0 0 0 st.S [] = .ok (S1, out) ∧ IsPermutation S1) ∧
    ∃ st1 out, Encrypt st input = .ok (st1, out) ∧ IsPermutation st1.S := by
  refine ⟨fun S cnt i j hS hc => ?_, fun m hm => ?_, ?_⟩
  · exact ⟨_, _, _, _, Encrypt_body_eq input hc i j S, isPermutation_swapAt hS _ _⟩
  · exact ⟨_, _, Encrypt_loop_eq input m 0 0 0 st.S [] (by omega),
      prgaState_isPermutation m 0 0 st.S h⟩
  · refine ⟨⟨st.shadowS, prgaState input.length 0 0 st.S⟩, _, Encrypt_eq st input, ?_⟩
    simp only
    exact prgaState_isPermutation input.length 0 0 st.S h

/-- Witness of C10 on the identity state and the input "Plaintext". -/
theorem C10_permutation_preserved_witness :
    IsPermutation (RC4.mk identityArray identityArray).S ∧
    ((∀ (S : StateArray) (cnt : Nat) (i j : Int), IsPermutation S → cnt < plaintext.length →
      ∃ i1 j1 S1 c,
        Encrypt.body plaintext cnt i j S = .ok (i1, j1, S1, c) ∧ IsPermutation S1) ∧
    (∀ m, m ≤ plaintext.length →
      ∃ S1 out,
        Encrypt.loop plaintext m 0 0 0 (RC4.mk identityArray identityArray).S [] = .ok (S1, out) ∧
        IsPermutation S1) ∧
    ∃ st1 out,
      Encrypt (RC4.mk identityArray identityArray) plaintext = .ok (st1, out) ∧
      IsPermutation st1.S) :=
  have h : IsPermutation (RC4.mk identityArray identityArray).S := by
    simp only
    exact identityArray_isPermutation
  ⟨h, C10_permutation_preserved (RC4.mk identityArray identityArray) plaintext h⟩

/-! ## Lemmas for the later claims -/

theorem Init_body_ok (key : List CChar) (hk : 1 ≤ key.length) (i : Nat) (hi : i < 256)
    (j : Int) (S : StateArray) :
    ∃ j1 S1, Init.body key i j S = .ok (j1, S1) ∧ 0 ≤ j1 ∧ j1 < 256 :=
  ⟨ksaJ key i j S, ksaS key i j S, Init_body_eq key hk hi j S,
    (ksaJ_range key i j S).1, (ksaJ_range key i j S).2⟩

theorem Encrypt_body_ok (input : List CChar) (cnt : Nat) (hc : cnt < input.length)
    (i j : Int) (S : StateArray) :
    ∃ i1 j1 S1 c, Encrypt.body input cnt i j S = .ok (i1, j1, S1, c) ∧
      0 ≤ i1 ∧ i1 < 256 ∧ 0 ≤ j1 ∧ j1 < 256 :=
  ⟨prgaI i, prgaJ i j S, prgaS i j S, _, Encrypt_body_eq input hc i j S,
    (prgaI_range i).1, (prgaI_range i).2, (prgaJ_range i j S).1, (prgaJ_range i j S).2⟩

theorem read_ok_iff (S : StateArray) (i : Int) :
    (∃ c, S.read i = .ok c) ↔ (0 ≤ i ∧ i < 256) := by
  unfold StateArray.read
  by_cases h : 0 ≤ i ∧ i < 256
  · rw [dif_pos h]
    exact ⟨fun _ => h, fun _ => ⟨_, rfl⟩⟩
  · rw [dif_neg h]
    constructor
    · intro ⟨c, hc⟩
      cases hc
    · intro h2
      exact absurd h2 h

/-! ### The all-zero array -/

theorem zeroArray_get (k : Fin STATE_ARRAY_SIZE) : zeroArray.get k = CChar.ofInt 0 :=
  Mathlib.Vector.get_replicate _ k

theorem get_eq_zero_iff (S : StateArray) :
    S = zeroArray ↔ ∀ k, S.get k = CChar.ofInt 0 := by
  constructor
  · intro h k
    rw [h, zeroArray_get]
  · intro h
    apply Mathlib.Vector.ext
    intro k
    rw [h k, zeroArray_get]

theorem swapAt_zeroArray (a b : Fin STATE_ARRAY_SIZE) : swapAt zeroArray a b = zeroArray := by
  rw [get_eq_zero_iff]
  intro k
  rw [swapAt_eq_ofFn, Mathlib.Vector.get_ofFn, Function.comp_apply, zeroArray_get]

theorem ksaLoop_zeroArray (key : List CChar) (n : Nat) :
    ∀ (i : Nat) (j : Int), ksaLoop key n i j zeroArray = zeroArray := by
  induction n with
  | zero => intro i j; rfl
  | succ n ih =>
    intro i j
    rw [ksaLoop, ksaS, swapAt_zeroArray]
    exact ih _ _

theorem prgaS_zeroArray (i j : Int) : prgaS i j zeroArray = zeroArray := by
  rw [prgaS, swapAt_zeroArray]

theorem prgaState_zeroArray (n : Nat) :
    ∀ (i j : Int), prgaState n i j zeroArray = zeroArray := by
  induction n with
  | zero => intro i j; rfl
  | succ n ih =>
    intro i j
    rw [prgaState, prgaS_zeroArray]
    exact ih _ _

theorem keystream_zeroArray (n : Nat) :
    ∀ (i j : Int), keystream n i j zeroArray = List.replicate n (CChar.ofInt 0) := by
  induction n with
  | zero => intro i j; rfl
  | succ n ih =>
    intro i j
    rw [keystream, prgaS_zeroArray, ih, List.replicate_succ]
    congr 1
    rw [prgaK, prgaS_zeroArray, zeroArray_get]

theorem CChar.xor_zero (x : CChar) : CChar.xor x (CChar.ofInt 0) = x := by
  apply CChar.toNat_inj
  rw [CChar.toNat_xor, CChar.toNat_ofInt]
  exact Nat.xor_zero _

theorem xorBytes_zero (xs : List CChar) :
    xorBytes xs (List.replicate xs.length (CChar.ofInt 0)) = xs := by
  induction xs with
  | nil => rfl
  | cons x xs ih =>
    simp only [xorBytes] at ih
    simp only [xorBytes, List.length_cons, List.replicate_succ, List.zipWith_cons_cons,
      CChar.xor_zero, ih]

theorem bytes_zeroArray : bytes zeroArray = List.replicate 256 0 := by
  apply List.ext_getElem
  · rw [bytes_length, List.length_replicate]
  · intro n h1 h2
    rw [bytes_length] at h1
    have h := bytes_getD zeroArray ⟨n, h1⟩
    rw [List.getD_eq_getElem _ _ (by rw [bytes_length]; exact h1), zeroArray_get,
      CChar.toNat_ofInt] at h
    rw [h, List.getElem_replicate]
    rfl

theorem zeroArray_not_isPermutation : ¬ IsPermutation zeroArray := by
  intro h
  have h1 := count_of_perm_range h 1 (by omega)
  rw [bytes_zeroArray, List.count_replicate] at h1
  simp at h1

theorem start_eq : RC4.start = ⟨zeroArray, zeroArray⟩ := rfl

/-! ### Keys that agree at every index the schedule reads -/

theorem ksaLoop_congr (key1 key2 : List CChar)
    (h : ∀ i, i < 256 →
      key1.getD (i % key1.length) default = key2.getD (i % key2.length) default) (n : Nat) :
    ∀ (i : Nat) (j : Int) (S : StateArray), i + n ≤ 256 →
      ksaLoop key1 n i j S = ksaLoop key2 n i j S := by
  induction n with
  | zero => intro i j S _; rfl
  | succ n ih =>
    intro i j S hi
    have hJ : ksaJ key1 i j S = ksaJ key2 i j S := by
      unfold ksaJ
      rw [h i (by omega)]
    rw [ksaLoop, ksaLoop, ksaS, ksaS, hJ]
    exact ih (i + 1) _ _ (by omega)

theorem repeatKey_length (K : List CChar) (m : Nat) :
    (repeatKey K m).length = m * K.length := by
  induction m with
  | zero => simp [repeatKey]
  | succ m ih =>
    rw [repeatKey, List.length_append, ih, Nat.succ_mul]
    omega

theorem repeatKey_getD (K : List CChar) (m : Nat) :
    ∀ n, n < m * K.length → (repeatKey K m).getD n default = K.getD (n % K.length) default := by
  induction m with
  | zero => intro n h; simp at h
  | succ m ih =>
    intro n h
    rw [repeatKey]
    by_cases hn : n < K.length
    · rw [List.getD_append _ _ _ _ hn, Nat.mod_eq_of_lt hn]
    · have hge : K.length ≤ n := by omega
      rw [List.getD_append_right _ _ _ _ hge, ih (n - K.length) (by
        rw [Nat.succ_mul] at h; omega)]
      congr 1
      rw [Nat.mod_eq_sub_mod hge]

theorem repeatKey_index (K : List CChar) (hK : 1 ≤ K.length) (m : Nat) (hm : 1 ≤ m) (i : Nat) :
    (repeatKey K m).getD (i % (repeatKey K m).length) default =
      K.getD (i % K.length) default := by
  have hpos : 0 < m * K.length := Nat.mul_pos hm hK
  rw [repeatKey_length, repeatKey_getD K m _ (Nat.mod_lt i hpos),
    Nat.mod_mul_left_mod]

theorem long_key_index (K1 K2 : List CChar) (h1 : 256 ≤ K1.length) (h2 : 256 ≤ K2.length)
    (h : K1.take 256 = K2.take 256) (i : Nat) (hi : i < 256) :
    K1.getD (i % K1.length) default = K2.getD (i % K2.length) default := by
  have e1 : (K1.take 256)[i]? = K1[i]? := List.getElem?_take_of_lt hi
  have e2 : (K2.take 256)[i]? = K2[i]? := List.getElem?_take_of_lt hi
  rw [Nat.mod_eq_of_lt (by omega), Nat.mod_eq_of_lt (by omega), List.getD_eq_getElem?_getD,
    List.getD_eq_getElem?_getD, ← e1, ← e2, h]

theorem xorBytes_same_keystream (xs : List CChar) :
    ∀ ys ks : List CChar, xs.length = ys.length → xs.length ≤ ks.length →
      xorBytes (xorBytes xs ks) (xorBytes ys ks) = xorBytes xs ys := by
  induction xs with
  | nil => intro ys ks _ _; simp [xorBytes]
  | cons x xs ih =>
    intro ys ks h1 h2
    cases ys with
    | nil => simp at h1
    | cons y ys =>
      cases ks with
      | nil => simp at h2
      | cons k ks =>
        have h3 := ih ys ks (by simpa using h1) (by simpa using h2)
        simp only [xorBytes] at h3
        simp only [xorBytes, List.zipWith_cons_cons, h3]
        congr 1
        apply CChar.toNat_inj
        rw [CChar.toNat_xor, CChar.toNat_xor, CChar.toNat_xor, CChar.toNat_xor,
          Nat.xor_comm y.toNat k.toNat, Nat.xor_assoc, Nat.xor_cancel_left]

/-! ## The claims, continued -/

/-- C11. No out-of-range access: for every key of length `L ≥ 1`, every
content of `S` and every input, each iteration of the loops of `Init` and
`Encrypt` completes from any running cursors, the key index `i % L` lies in
`0..L-1`, the cursors it leaves lie in `0..255`, and the two functions
complete: no checked access takes its error branch. -/
theorem C11_no_out_of_range (st : RC4) (K input : List CChar) (hK : 1 ≤ K.length) :
    (∀ (i : Nat) (j : Int) (S : StateArray), i < 256 →
      ∃ r j1 S1, sizeMod i K.length = .ok r ∧ r < K.length ∧
        Init.body K i j S = .ok (j1, S1) ∧ 0 ≤ j1 ∧ j1 < 256) ∧
    (∀ (cnt : Nat) (i j : Int) (S : StateArray), cnt < input.length →
      ∃ i1 j1 S1 c, Encrypt.body input cnt i j S = .ok (i1, j1, S1, c) ∧
        0 ≤ i1 ∧ i1 < 256 ∧ 0 ≤ j1 ∧ j1 < 256) ∧
    (∃ st1, Init st K = .ok st1) ∧
    ∃ st2 out, Encrypt st input = .ok (st2, out) := by
  refine ⟨fun i j S hi => ?_, fun cnt i j S hc => Encrypt_body_ok input cnt hc i j S, ?_, ?_⟩
  · obtain ⟨j1, S1, h1, h2, h3⟩ := Init_body_ok K hK i hi j S
    exact ⟨i % K.length, j1, S1, sizeMod_of_pos i hK, Nat.mod_lt i hK, h1, h2, h3⟩
  · obtain ⟨st1, h1, _, _⟩ := Init_ok st K hK
    exact ⟨st1, h1⟩
  · obtain ⟨st2, out, h2, _, _, _⟩ := Encrypt_ok st input
    exact ⟨st2, out, h2⟩

/-- Witness of C11 at program start, for the key "Key" and the input
"Plaintext". -/
theorem C11_no_out_of_range_witness :
    1 ≤ keyKey.length ∧
    ((∀ (i : Nat) (j : Int) (S : StateArray), i < 256 →
      ∃ r j1 S1, sizeMod i keyKey.length = .ok r ∧ r < keyKey.length ∧
        Init.body keyKey i j S = .ok (j1, S1) ∧ 0 ≤ j1 ∧ j1 < 256) ∧
    (∀ (cnt : Nat) (i j : Int) (S : StateArray), cnt < plaintext.length →
      ∃ i1 j1 S1 c, Encrypt.body plaintext cnt i j S = .ok (i1, j1, S1, c) ∧
        0 ≤ i1 ∧ i1 < 256 ∧ 0 ≤ j1 ∧ j1 < 256) ∧
    (∃ st1, Init RC4.start keyKey = .ok st1) ∧
    ∃ st2 out, Encrypt RC4.start plaintext = .ok (st2, out)) :=
  ⟨by decide, C11_no_out_of_range RC4.start keyKey plaintext (by decide)⟩

set_option maxRecDepth 1000000 in
/-- C12. Decryption needs a re-keyed cipher: for the key "Key" and the input
"Plaintext", after `InitShadowS` and `Init`, the ciphertext `C = Encrypt(P)`
passed to `Encrypt` again without a new `Init` does not give back `P`. -/
theorem C12_decrypt_needs_rekey :
    ∃ K P : List CChar, 1 ≤ K.length ∧
      ∃ st0 st1 st2 st3 C P1,
        InitShadowS RC4.start = .ok st0 ∧ Init st0 K = .ok st1 ∧
        Encrypt st1 P = .ok (st2, C) ∧ Encrypt st2 C = .ok (st3, P1) ∧
        P.map CChar.toNat = [0x50, 0x6C, 0x61, 0x69, 0x6E, 0x74, 0x65, 0x78, 0x74] ∧
        P1.map CChar.toNat = [0xEE, 0x88, 0x5C, 0x17, 0x9E, 0xAF, 0xA1, 0x5D, 0xC9] ∧
        P1 ≠ P := by
  obtain ⟨st0, st1, h0, h1, _, hS1⟩ := keyed RC4.start keyKey (by decide)
  obtain ⟨st2, C, h2, _, hS2, hC⟩ := Encrypt_ok st1 plaintext
  obtain ⟨st3, P1, h3, _, _, hP1⟩ := Encrypt_ok st2 C
  have hlen : C.length = plaintext.length := by
    rw [hC]; exact Encrypt_output_length st1 plaintext
  rw [hS2, hlen, hC, hS1] at hP1
  have e : (xorBytes
      (xorBytes plaintext (keystream plaintext.length 0 0 (ksaLoop keyKey 256 0 0 identityArray)))
      (keystream plaintext.length 0 0
        (prgaState plaintext.length 0 0 (ksaLoop keyKey 256 0 0 identityArray)))).map
        CChar.toNat =
      [0xEE, 0x88, 0x5C, 0x17, 0x9E, 0xAF, 0xA1, 0x5D, 0xC9] := by decide!
  have ep : plaintext.map CChar.toNat =
      [0x50, 0x6C, 0x61, 0x69, 0x6E, 0x74, 0x65, 0x78, 0x74] := by decide
  rw [← hP1] at e
  refine ⟨keyKey, plaintext, by decide, st0, st1, st2, st3, C, P1, h0, h1, h2, h3, ep, e, ?_⟩
  intro h
  rw [h, ep] at e
  revert e
  decide

/-- C13. Missing shadow initialisation disables the cipher: when `shadowS`
is all zeros, as at program start, for every key `K` of length at least 1
`Init(K)` completes and leaves all 256 entries of `S` equal to 0, which is not
a permutation, and every `Encrypt` call from then on leaves the state as it is
and returns its input unchanged. -/
theorem C13_missing_shadow_init (st : RC4) (K : List CChar) (hK : 1 ≤ K.length)
    (hsh : st.shadowS = RC4.start.shadowS) :
    ∃ st1, Init st K = .ok st1 ∧
      bytes st1.S = List.replicate 256 0 ∧ ¬ IsPermutation st1.S ∧
      ∀ input, Encrypt st1 input = .ok (st1, input) := by
  have hz : st.shadowS = zeroArray := by rw [hsh, start_eq]
  obtain ⟨st1, h1, hsh1, hS1⟩ := Init_ok st K hK
  rw [hz, ksaLoop_zeroArray] at hS1
  refine ⟨st1, h1, ?_, ?_, fun input => ?_⟩
  · rw [hS1, bytes_zeroArray]
  · rw [hS1]; exact zeroArray_not_isPermutation
  · have h := Encrypt_eq st1 input
    rw [hS1, prgaState_zeroArray, keystream_zeroArray, xorBytes_zero, ← hS1] at h
    exact h

/-- Witness of C13 at program start, for the key "Key". -/
theorem C13_missing_shadow_init_witness :
    1 ≤ keyKey.length ∧ RC4.start.shadowS = RC4.start.shadowS ∧
    ∃ st1, Init RC4.start keyKey = .ok st1 ∧
      bytes st1.S = List.replicate 256 0 ∧ ¬ IsPermutation st1.S ∧
      ∀ input, Encrypt st1 input = .ok (st1, input) :=
  ⟨by decide, rfl, C13_missing_shadow_init RC4.start keyKey (by decide) rfl⟩

/-- C14. The keystream does not depend on the data: for every state and every
two inputs `P1`, `P2` of the same length, both `Encrypt` calls complete with
the same final state, both outputs are the input combined bytewise with one
and the same keystream, and the bytewise XOR of the two outputs equals the
bytewise XOR of the two inputs. -/
theorem C14_keystream_independent (st : RC4) (P1 P2 : List CChar)
    (h : P1.length = P2.length) :
    ∃ st1 ks out1 out2,
      Encrypt st P1 = .ok (st1, out1) ∧ Encrypt st P2 = .ok (st1, out2) ∧
      ks.length = P1.length ∧ out1 = xorBytes P1 ks ∧ out2 = xorBytes P2 ks ∧
      xorBytes out1 out2 = xorBytes P1 P2 := by
  obtain ⟨s1, o1, h1, hsh1, hS1, ho1⟩ := Encrypt_ok st P1
  obtain ⟨s2, o2, h2, hsh2, hS2, ho2⟩ := Encrypt_ok st P2
  rw [← h] at hS2 ho2
  have hs : s2 = s1 := by
    cases s1; cases s2
    simp only at hsh1 hS1 hsh2 hS2
    rw [hsh1, hS1, hsh2, hS2]
  rw [hs] at h2
  refine ⟨s1, keystream P1.length 0 0 st.S, o1, o2, h1, h2, keystream_length _ _ _ _, ho1, ho2, ?_⟩
  rw [ho1, ho2]
  exact xorBytes_same_keystream P1 P2 _ h (by rw [keystream_length])

/-- Witness of C14 for the inputs "Plaintext" and "Key" repeated three
times. -/
theorem C14_keystream_independent_witness :
    plaintext.length = (repeatKey keyKey 3).length ∧
    ∃ st1 ks out1 out2,
      Encrypt RC4.start plaintext = .ok (st1, out1) ∧
      Encrypt RC4.start (repeatKey keyKey 3) = .ok (st1, out2) ∧
      ks.length = plaintext.length ∧ out1 = xorBytes plaintext ks ∧
      out2 = xorBytes (repeatKey keyKey 3) ks ∧
      xorBytes out1 out2 = xorBytes plaintext (repeatKey keyKey 3) :=
  ⟨by decide, C14_keystream_independent RC4.start plaintext (repeatKey keyKey 3) (by decide)⟩

/-- C15. Key repetition does not change the schedule: for every key `K` of
length `L ≥ 1` and every `m ≥ 1`, `Init` with `m` copies of `K` in a row
(length `m * L`) and `Init` with `K` itself both complete and leave the same
`S`, and every input then gets the same `Encrypt` output under both. -/
theorem C15_key_repetition (st : RC4) (K : List CChar) (m : Nat) (hK : 1 ≤ K.length)
    (hm : 1 ≤ m) :
    (repeatKey K m).length = m * K.length ∧
    ∃ s1 s2,
      Init st (repeatKey K m) = .ok s1 ∧ Init st K = .ok s2 ∧ s1.S = s2.S ∧
      ∀ input, ∃ t1 t2 out,
        Encrypt s1 input = .ok (t1, out) ∧ Encrypt s2 input = .ok (t2, out) := by
  have hlen := repeatKey_length K m
  have hpos : 1 ≤ (repeatKey K m).length := by
    rw [hlen]; exact Nat.mul_pos hm hK
  obtain ⟨s1, h1, _, hS1⟩ := Init_ok st (repeatKey K m) hpos
  obtain ⟨s2, h2, _, hS2⟩ := Init_ok st K hK
  have hS : s1.S = s2.S := by
    rw [hS1, hS2]
    exact ksaLoop_congr (repeatKey K m) K (fun i _ => repeatKey_index K hK m hm i) 256 0 0 _
      (by omega)
  refine ⟨hlen, s1, s2, h1, h2, hS, fun input => ?_⟩
  obtain ⟨t1, o1, g1, _, _, ho1⟩ := Encrypt_ok s1 input
  obtain ⟨t2, o2, g2, _, _, ho2⟩ := Encrypt_ok s2 input
  refine ⟨t1, t2, o1, g1, ?_⟩
  rw [ho1, hS, ← ho2]
  exact g2

/-- Witness of C15 for the key "Key" repeated three times, at program
start. -/
theorem C15_key_repetition_witness :
    1 ≤ keyKey.length ∧ 1 ≤ 3 ∧
    (repeatKey keyKey 3).length = 3 * keyKey.length ∧
    ∃ s1 s2,
      Init RC4.start (repeatKey keyKey 3) = .ok s1 ∧ Init RC4.start keyKey = .ok s2 ∧
      s1.S = s2.S ∧
      ∀ input, ∃ t1 t2 out,
        Encrypt s1 input = .ok (t1, out) ∧ Encrypt s2 input = .ok (t2, out) :=
  ⟨by decide, by decide, C15_key_repetition RC4.start keyKey 3 (by decide) (by decide)⟩

/-- C16. Long keys are cut at 256 bytes: for every two keys of length at
least 256 that agree on their first 256 bytes, `Init` completes for both and
leaves the same `S`; for such a key the key index `i % L` of iteration `i` is
`i` itself, so the index never wraps and the bytes from index 256 on are never
read. -/
theorem C16_long_keys_truncated (st : RC4) (K1 K2 : List CChar) (h1 : 256 ≤ K1.length)
    (h2 : 256 ≤ K2.length) (h : K1.take 256 = K2.take 256) :
    (∃ s1 s2, Init st K1 = .ok s1 ∧ Init st K2 = .ok s2 ∧ s1.S = s2.S) ∧
    ∀ i, i < 256 → sizeMod i K1.length = .ok i ∧ sizeMod i K2.length = .ok i := by
  constructor
  · obtain ⟨s1, g1, _, hS1⟩ := Init_ok st K1 (by omega)
    obtain ⟨s2, g2, _, hS2⟩ := Init_ok st K2 (by omega)
    refine ⟨s1, s2, g1, g2, ?_⟩
    rw [hS1, hS2]
    exact ksaLoop_congr K1 K2 (long_key_index K1 K2 h1 h2 h) 256 0 0 _ (by omega)
  · intro i hi
    have e1 := sizeMod_of_pos i (show 0 < K1.length by omega)
    have e2 := sizeMod_of_pos i (show 0 < K2.length by omega)
    rw [Nat.mod_eq_of_lt (by omega)] at e1 e2
    exact ⟨e1, e2⟩

/-- Witness of C16 for the 300-byte key and its first 256 bytes. -/
theorem C16_long_keys_truncated_witness :
    256 ≤ longKey.length ∧ 256 ≤ (longKey.take 256).length ∧
    longKey.take 256 = (longKey.take 256).take 256 ∧
    ((∃ s1 s2, Init RC4.start longKey = .ok s1 ∧ Init RC4.start (longKey.take 256) = .ok s2 ∧
        s1.S = s2.S) ∧
      ∀ i, i < 256 →
        sizeMod i longKey.length = .ok i ∧ sizeMod i (longKey.take 256).length = .ok i) :=
  have g1 : 256 ≤ longKey.length := by simp [longKey]
  have g2 : 256 ≤ (longKey.take 256).length := by simp [longKey]
  have g3 : longKey.take 256 = (longKey.take 256).take 256 := by simp
  ⟨g1, g2, g3, C16_long_keys_truncated RC4.start longKey (longKey.take 256) g1 g2 g3⟩

end NativeRC4
